import Mathlib

set_option maxHeartbeats 1000000
set_option maxRecDepth 100000

namespace PsychBot

/- Shallow embedding of src/psychologist_bot/bot.py.  Text is modelled as
   `List Char` (one element per Unicode code point, matching Python `str`
   indexing and `len`).  The regex-substitution passes of `strip_html` are
   written as fuel-indexed structural recursions so that they compute by
   kernel reduction; the fuel is always instantiated with the input length,
   which every lemma shows is sufficient. -/

/-- ASCII fragment of the Python regex class `\w` (letters, digits, underscore). -/
def isW (c : Char) : Bool := c.isAlphanum || c = '_'

/-- The Python regex class `[-.\w]` used for the domain part of a mention. -/
def isDomChar (c : Char) : Bool := isW c || c = '-' || c = '.'

/-- Python `str.split()` whitespace (ASCII fragment). -/
def isSpace (c : Char) : Bool :=
  c = ' ' || c = '\t' || c = '\n' || c = '\r' || c = '\x0b' || c = '\x0c'

/-- Models the stdlib call `html.unescape` (an external collaborator of the
repository) for the basic named entities amp, lt, gt, quot and the numeric
apostrophe.  The real stdlib decodes the full HTML5 entity table in a single
left-to-right pass; this model keeps the single-pass structure, which is all
the theorems below depend on. -/
def unescapeAux : Nat → List Char → List Char
  | _, [] => []
  | 0, l => l
  | f+1, c :: rest =>
    if c = '&' then
      match rest with
      | 'a' :: 'm' :: 'p' :: ';' :: r => '&' :: unescapeAux f r
      | 'l' :: 't' :: ';' :: r => '<' :: unescapeAux f r
      | 'g' :: 't' :: ';' :: r => '>' :: unescapeAux f r
      | 'q' :: 'u' :: 'o' :: 't' :: ';' :: r => '"' :: unescapeAux f r
      | '#' :: '3' :: '9' :: ';' :: r => '\x27' :: unescapeAux f r
      | _ => c :: unescapeAux f rest
    else c :: unescapeAux f rest

def unescape (l : List Char) : List Char := unescapeAux l.length l

/-- `re.sub(r"@\w+(?:@[-.\w]+)?", "", text)`: left-to-right scan; at an `@`
with at least one `\w` after it, the maximal `\w` run is consumed, then the
optional `@domain` group if it matches, and the whole match is deleted. -/
def removeMentionsAux : Nat → List Char → List Char
  | _, [] => []
  | 0, l => l
  | f+1, c :: rest =>
    if c = '@' then
      if rest.takeWhile isW = [] then c :: removeMentionsAux f rest
      else
        match rest.dropWhile isW with
        | '@' :: r2 =>
          if r2.takeWhile isDomChar = [] then removeMentionsAux f ('@' :: r2)
          else removeMentionsAux f (r2.dropWhile isDomChar)
        | r1 => removeMentionsAux f r1
    else c :: removeMentionsAux f rest

def removeMentions (l : List Char) : List Char := removeMentionsAux l.length l

/-- `re.sub(r"#\w+", "", text)`. -/
def removeHashtagsAux : Nat → List Char → List Char
  | _, [] => []
  | 0, l => l
  | f+1, c :: rest =>
    if c = '#' then
      if rest.takeWhile isW = [] then c :: removeHashtagsAux f rest
      else removeHashtagsAux f (rest.dropWhile isW)
    else c :: removeHashtagsAux f rest

def removeHashtags (l : List Char) : List Char := removeHashtagsAux l.length l

/-- `re.sub(r"<[^>]+>", "", text)`: at a `<`, the (greedy) `[^>]+` runs to the
first `>`; the match succeeds iff that run is nonempty and a `>` exists, and
then the whole span is deleted; otherwise the `<` is kept and scanning resumes
one character later. -/
def removeTagsAux : Nat → List Char → List Char
  | _, [] => []
  | 0, l => l
  | f+1, c :: rest =>
    if c = '<' then
      if (rest.takeWhile (fun x => x ≠ '>')).length = rest.length then
        c :: removeTagsAux f rest
      else if rest.takeWhile (fun x => x ≠ '>') = [] then
        c :: removeTagsAux f rest
      else
        removeTagsAux f (rest.drop ((rest.takeWhile (fun x => x ≠ '>')).length + 1))
    else c :: removeTagsAux f rest

def removeTags (l : List Char) : List Char := removeTagsAux l.length l

/-- Python `str.split()` with no argument: maximal runs of non-whitespace,
runs of whitespace acting as separators, empty words never produced.
Accumulator-based so the recursion is structural. -/
def splitWsAcc (acc : List Char) : List Char → List (List Char)
  | [] => if acc = [] then [] else [acc.reverse]
  | c :: rest =>
    if isSpace c then
      if acc = [] then splitWsAcc [] rest
      else acc.reverse :: splitWsAcc [] rest
    else splitWsAcc (c :: acc) rest

def splitWs (l : List Char) : List (List Char) := splitWsAcc [] l

/-- Python `str.strip()` (whitespace from both ends). -/
def pyStrip (l : List Char) : List Char :=
  (((l.dropWhile isSpace).reverse.dropWhile isSpace)).reverse

/-- `" ".join(words)`: the words separated by single spaces. -/
def joinSp : List (List Char) → List Char
  | [] => []
  | [w] => w
  | w :: ws => w ++ ' ' :: joinSp ws

/-- `" ".join(text.split())` followed by `.strip()` — the whitespace
normalisation at the end of `strip_html`. -/
def normalizeWs (l : List Char) : List Char :=
  pyStrip (joinSp (splitWs l))

/-- `strip_html` from bot.py: entity decoding, then mention removal, then
hashtag removal, then tag removal, then whitespace collapsing. -/
def strip_html (l : List Char) : List Char :=
  normalizeWs (removeTags (removeHashtags (removeMentions (unescape l))))

/- ---------------------------------------------------------------------- -/
/- The event pipeline of TimelineListener.on_update.                       -/
/- ---------------------------------------------------------------------- -/

/-- One inbound Mastodon status, with the fields `on_update` reads. -/
structure Status where
  in_reply_to_id : Option Nat
  account_id : Nat
  acct : List Char
  visibility : List Char
  reblog : Option Nat
  id : Nat
  content : List Char
deriving DecidableEq

/-- Outcome of the Gemini generation call, as classified by the code:
`text t` — `generate_content` returned and `response.text` yielded `t`;
`blocked` — `response.text` raised `ValueError` and a truthy
`prompt_feedback.block_reason` was present; `failed` — `ValueError` with no
block reason; `raised` — the call (or anything else inside the `try` body
before posting) raised an exception that reaches the outer handler. -/
inductive GenOutcome where
  | text (t : List Char)
  | blocked
  | failed
  | raised
deriving DecidableEq

/-- The external world for a single `on_update` call: the value returned by
`random.random()`, the generation outcome, and whether each of the two
`mastodon.status_post` calls succeeds. -/
structure Env where
  rand : ℚ
  gen : GenOutcome
  postOk : Bool
  errPostOk : Bool

/-- One outbound `mastodon.status_post` call's arguments. -/
structure MPost where
  status : List Char
  in_reply_to_id : Nat
  visibility : List Char
deriving DecidableEq

/-- Result of one `on_update` call, distinguishing every exit path of the
code. -/
inductive RunResult where
  | filtered
  | sampledOut
  | emptyContent
  | emptyGeneration
  | replied (p : MPost)
  | errorReplied (p : MPost)
  | doubleFailure
deriving DecidableEq

def pubVis : List Char := "public".data

def safetyMsg : List Char :=
  "I\x27m unable to respond to that specific content due to safety guidelines.".data

def troubleMsg : List Char :=
  "I had trouble processing that request. Please try rephrasing.".data

def internalErrMsg : List Char :=
  "Sorry, I encountered an internal error while trying to respond.".data

/-- The `gemini_reply_text` value after the response-shape handling, for the
non-raising outcomes. -/
def geminiReplyText : GenOutcome → List Char
  | .text t => t
  | .blocked => safetyMsg
  | .failed => troubleMsg
  | .raised => []

/-- The eligibility filter of `on_update` (lines 92–99): the negation of the
early-return condition. -/
def eligible (botId : Nat) (s : Status) : Bool :=
  !(decide (s.in_reply_to_id ≠ none) || decide (s.account_id = botId) ||
    decide (s.visibility ≠ pubVis) || decide (s.reblog ≠ none))

/-- `f"@{sender_acct} {gemini_reply_text}"` followed by the 490-character
truncation with `"..."` appended. -/
def composeReply (acct : List Char) (body : List Char) : List Char :=
  let reply := '@' :: acct ++ ' ' :: body
  if 490 < reply.length then reply.take 490 ++ "...".data else reply

/-- The apology posted from the outer exception handler. -/
def errApology (acct : List Char) : List Char :=
  '@' :: acct ++ ' ' :: internalErrMsg

/-- `TimelineListener.on_update`: filter, probability gate
(`random.random() > 0.95` skips), sanitize, generate, compose, post, with the
outer `try`/`except` around generation and posting modelled by the `Env`
flags. -/
def on_update (botId : Nat) (env : Env) (s : Status) : RunResult :=
  if eligible botId s = false then .filtered
  else if mkRat 95 100 < env.rand then .sampledOut
  else if strip_html s.content = [] then .emptyContent
  else
    match env.gen with
    | .raised =>
      if env.errPostOk then .errorReplied ⟨errApology s.acct, s.id, "direct".data⟩
      else .doubleFailure
    | g =>
      if geminiReplyText g = [] then .emptyGeneration
      else
        if env.postOk then
          .replied ⟨composeReply s.acct (geminiReplyText g), s.id, "unlisted".data⟩
        else if env.errPostOk then
          .errorReplied ⟨errApology s.acct, s.id, "direct".data⟩
        else .doubleFailure

/-- The posts that actually reached Mastodon for a given run. -/
def postsOf : RunResult → List MPost
  | .replied p => [p]
  | .errorReplied p => [p]
  | _ => []

/-- No two consecutive whitespace characters. -/
def noWsRun : List Char → Bool
  | [] => true
  | [_] => true
  | c :: d :: rest => !(isSpace c && isSpace d) && noWsRun (d :: rest)

/-- No angle-bracket-delimited span: no substring matching `<[^>]+>`, i.e.
every `<` either has no later `>` or is immediately followed by one. -/
def noSpanB : List Char → Bool
  | [] => true
  | c :: rest =>
    (if c = '<' then (!(rest.contains '>') || rest.head? = some '>') else true)
      && noSpanB rest

/-- A fixed eligible public top-level status from account 2 (the bot is
account 1 below), used to instantiate the pipeline theorems. -/
def statusA : Status :=
  ⟨none, 2, "alice".data, "public".data, none, 10, "hi".data⟩

/- ---------------------------------------------------------------------- -/
/- Lemmas about the sanitizer passes.                                      -/
/- ---------------------------------------------------------------------- -/

theorem unescapeAux_id (f : Nat) : ∀ l : List Char, '&' ∉ l → unescapeAux f l = l := by
  induction f with
  | zero => intro l _; cases l <;> simp [unescapeAux]
  | succ f ih =>
    intro l h
    cases l with
    | nil => simp [unescapeAux]
    | cons c rest =>
      have hc : ¬ c = '&' := fun e => h (e ▸ List.mem_cons_self c rest)
      simp only [unescapeAux, if_neg hc]
      exact congrArg (c :: ·) (ih rest (fun hr => h (List.mem_cons_of_mem c hr)))

theorem removeMentionsAux_id (f : Nat) :
    ∀ l : List Char, '@' ∉ l → removeMentionsAux f l = l := by
  induction f with
  | zero => intro l _; cases l <;> simp [removeMentionsAux]
  | succ f ih =>
    intro l h
    cases l with
    | nil => simp [removeMentionsAux]
    | cons c rest =>
      have hc : ¬ c = '@' := fun e => h (e ▸ List.mem_cons_self c rest)
      simp only [removeMentionsAux, if_neg hc]
      exact congrArg (c :: ·) (ih rest (fun hr => h (List.mem_cons_of_mem c hr)))

theorem removeHashtagsAux_id (f : Nat) :
    ∀ l : List Char, '#' ∉ l → removeHashtagsAux f l = l := by
  induction f with
  | zero => intro l _; cases l <;> simp [removeHashtagsAux]
  | succ f ih =>
    intro l h
    cases l with
    | nil => simp [removeHashtagsAux]
    | cons c rest =>
      have hc : ¬ c = '#' := fun e => h (e ▸ List.mem_cons_self c rest)
      simp only [removeHashtagsAux, if_neg hc]
      exact congrArg (c :: ·) (ih rest (fun hr => h (List.mem_cons_of_mem c hr)))

theorem removeTagsAux_id (f : Nat) :
    ∀ l : List Char, '<' ∉ l → removeTagsAux f l = l := by
  induction f with
  | zero => intro l _; cases l <;> simp [removeTagsAux]
  | succ f ih =>
    intro l h
    cases l with
    | nil => simp [removeTagsAux]
    | cons c rest =>
      have hc : ¬ c = '<' := fun e => h (e ▸ List.mem_cons_self c rest)
      simp only [removeTagsAux, if_neg hc]
      exact congrArg (c :: ·) (ih rest (fun hr => h (List.mem_cons_of_mem c hr)))

theorem unescape_id {l : List Char} (h : '&' ∉ l) : unescape l = l :=
  unescapeAux_id l.length l h

theorem removeMentions_id {l : List Char} (h : '@' ∉ l) : removeMentions l = l :=
  removeMentionsAux_id l.length l h

theorem removeHashtags_id {l : List Char} (h : '#' ∉ l) : removeHashtags l = l :=
  removeHashtagsAux_id l.length l h

theorem removeTags_id {l : List Char} (h : '<' ∉ l) : removeTags l = l :=
  removeTagsAux_id l.length l h

theorem removeTagsAux_nil (f : Nat) : removeTagsAux f [] = [] := by
  cases f <;> rfl

theorem removeTagsAux_cons_ne (f : Nat) (c : Char) (rest : List Char)
    (h : ¬ c = '<') : removeTagsAux (f+1) (c :: rest) = c :: removeTagsAux f rest := by
  simp only [removeTagsAux, if_neg h]

theorem removeTagsAux_lt_noGt (f : Nat) (rest : List Char)
    (h : (rest.takeWhile (fun x => x ≠ '>')).length = rest.length) :
    removeTagsAux (f+1) ('<' :: rest) = '<' :: removeTagsAux f rest := by
  simp only [removeTagsAux, if_pos rfl, if_pos h]
  simp

theorem removeTagsAux_lt_imm (f : Nat) (rest : List Char)
    (h1 : ¬ (rest.takeWhile (fun x => x ≠ '>')).length = rest.length)
    (h2 : rest.takeWhile (fun x => x ≠ '>') = []) :
    removeTagsAux (f+1) ('<' :: rest) = '<' :: removeTagsAux f rest := by
  simp only [removeTagsAux, if_pos rfl, if_neg h1, if_pos h2]
  simp

theorem removeTagsAux_lt_span (f : Nat) (rest : List Char)
    (h1 : ¬ (rest.takeWhile (fun x => x ≠ '>')).length = rest.length)
    (h2 : ¬ rest.takeWhile (fun x => x ≠ '>') = []) :
    removeTagsAux (f+1) ('<' :: rest) =
      removeTagsAux f (rest.drop ((rest.takeWhile (fun x => x ≠ '>')).length + 1)) := by
  simp only [removeTagsAux, if_pos rfl, if_neg h1, if_neg h2]
  simp

theorem mem_removeTagsAux {c : Char} (f : Nat) :
    ∀ l : List Char, c ∈ removeTagsAux f l → c ∈ l := by
  induction f with
  | zero => intro l h; cases l <;> simp_all [removeTagsAux]
  | succ f ih =>
    intro l h
    cases l with
    | nil => simp_all [removeTagsAux_nil]
    | cons a rest =>
      by_cases ha : a = '<'
      · subst ha
        by_cases h1 : ((rest.takeWhile (fun x => x ≠ '>')).length = rest.length)
        · rw [removeTagsAux_lt_noGt f rest h1] at h
          rcases List.mem_cons.mp h with h | h
          · exact h ▸ List.mem_cons_self _ _
          · exact List.mem_cons_of_mem _ (ih rest h)
        · by_cases h2 : rest.takeWhile (fun x => x ≠ '>') = []
          · rw [removeTagsAux_lt_imm f rest h1 h2] at h
            rcases List.mem_cons.mp h with h | h
            · exact h ▸ List.mem_cons_self _ _
            · exact List.mem_cons_of_mem _ (ih rest h)
          · rw [removeTagsAux_lt_span f rest h1 h2] at h
            exact List.mem_cons_of_mem _
              (List.drop_subset _ rest (ih _ h))
      · rw [removeTagsAux_cons_ne f a rest ha] at h
        rcases List.mem_cons.mp h with h | h
        · exact h ▸ List.mem_cons_self _ _
        · exact List.mem_cons_of_mem _ (ih rest h)

/-- Prop form of `noSpanB`: wherever a `<` occurs, either no `>` follows it
at all, or the very next character is `>` (so no `<[^>]+>` match exists). -/
def NoSpan (l : List Char) : Prop :=
  ∀ a b, l = a ++ '<' :: b → '>' ∉ b ∨ b.head? = some '>'

theorem noSpan_nil : NoSpan [] := by
  intro a b h
  exact absurd h (by simp)

theorem noSpan_cons_iff {c : Char} {rest : List Char} :
    NoSpan (c :: rest) ↔
      (c = '<' → ('>' ∉ rest ∨ rest.head? = some '>')) ∧ NoSpan rest := by
  constructor
  · intro h
    refine ⟨fun hc => h [] rest (by rw [hc]; rfl), ?_⟩
    intro a b hab
    exact h (c :: a) b (by rw [hab]; rfl)
  · rintro ⟨h1, h2⟩ a b hab
    cases a with
    | nil =>
      simp only [List.nil_append, List.cons.injEq] at hab
      obtain ⟨hc, hb⟩ := hab
      subst hb
      exact h1 hc
    | cons x a' =>
      simp only [List.cons_append, List.cons.injEq] at hab
      exact h2 a' b hab.2

theorem contains_true_iff {l : List Char} {c : Char} : l.contains c = true ↔ c ∈ l := by
  simp

theorem noSpanB_iff : ∀ l : List Char, noSpanB l = true ↔ NoSpan l := by
  intro l
  induction l with
  | nil => simpa [noSpanB] using noSpan_nil
  | cons c rest ih =>
    rw [noSpanB, Bool.and_eq_true, ih, noSpan_cons_iff]
    refine and_congr ?_ Iff.rfl
    by_cases hc : c = '<'
    · rw [if_pos hc]
      simp [hc, contains_true_iff]
    · rw [if_neg hc]
      simp [hc]

theorem noSpan_append_right {x y : List Char} (h : NoSpan (x ++ y)) : NoSpan y := by
  intro a b hab
  exact h (x ++ a) b (by rw [hab, List.append_assoc])

theorem noSpan_append_left {x y : List Char} (h : NoSpan (x ++ y)) : NoSpan x := by
  intro a b hab
  rcases h a (b ++ y) (by rw [hab]; simp) with h' | h'
  · left
    intro hb
    exact h' (List.mem_append_left y hb)
  · cases b with
    | nil => left; simp
    | cons d b' =>
      right
      simpa using h'

theorem takeWhile_all_of_length {p : Char → Bool} :
    ∀ l : List Char, (l.takeWhile p).length = l.length → ∀ c ∈ l, p c = true := by
  intro l
  induction l with
  | nil => simp
  | cons a rest ih =>
    intro h c hc
    by_cases hp : p a
    · rw [List.takeWhile_cons, if_pos hp, List.length_cons,
        List.length_cons, Nat.add_right_cancel_iff] at h
      rcases List.mem_cons.mp hc with hce | hcr
      · exact hce ▸ hp
      · exact ih h c hcr
    · rw [List.takeWhile_cons, if_neg hp] at h
      simp at h

theorem noSpan_removeTagsAux : ∀ f : Nat, ∀ l : List Char, l.length ≤ f →
    NoSpan (removeTagsAux f l) := by
  intro f
  induction f with
  | zero =>
    intro l hl
    have : l = [] := List.length_eq_zero.mp (Nat.le_zero.mp hl)
    subst this
    rw [removeTagsAux_nil]
    exact noSpan_nil
  | succ n ih =>
    intro l hl
    cases l with
    | nil =>
      rw [removeTagsAux_nil]
      exact noSpan_nil
    | cons c rest =>
      have hr : rest.length ≤ n := by
        rw [List.length_cons] at hl
        omega
      by_cases hc : c = '<'
      · subst hc
        by_cases h1 : (rest.takeWhile (fun x => x ≠ '>')).length = rest.length
        · rw [removeTagsAux_lt_noGt n rest h1, noSpan_cons_iff]
          refine ⟨fun _ => Or.inl fun hmem => ?_, ih rest hr⟩
          have h' := mem_removeTagsAux n rest hmem
          have := takeWhile_all_of_length rest h1 '>' h'
          simp at this
        · by_cases h2 : rest.takeWhile (fun x => x ≠ '>') = []
          · have hrest : ∃ suf, rest = '>' :: suf := by
              cases rest with
              | nil => exact absurd rfl h1
              | cons a suf =>
                rw [List.takeWhile_cons] at h2
                by_cases hp : (a ≠ '>' : Bool)
                · rw [if_pos hp] at h2
                  exact absurd h2 (List.cons_ne_nil _ _)
                · have : a = '>' := by
                    simpa using hp
                  exact ⟨suf, by rw [this]⟩
            obtain ⟨suf, hsuf⟩ := hrest
            subst hsuf
            rw [removeTagsAux_lt_imm n _ h1 h2, noSpan_cons_iff]
            cases n with
            | zero => simp at hr
            | succ m =>
              refine ⟨fun _ => Or.inr ?_, ih ('>' :: suf) hr⟩
              rw [removeTagsAux_cons_ne m '>' suf (by decide)]
              rfl
          · rw [removeTagsAux_lt_span n rest h1 h2]
            apply ih
            rw [List.length_drop]
            omega
      · rw [removeTagsAux_cons_ne n c rest hc, noSpan_cons_iff]
        exact ⟨fun h => absurd h hc, ih rest hr⟩

theorem noSpan_removeTags (l : List Char) : NoSpan (removeTags l) :=
  noSpan_removeTagsAux l.length l (le_refl _)

/- Lemmas about the whitespace-normalisation pass. -/

theorem splitWsAcc_nil (acc : List Char) :
    splitWsAcc acc [] = if acc = [] then [] else [acc.reverse] := rfl

theorem splitWsAcc_space (acc : List Char) (c : Char) (rest : List Char)
    (h : isSpace c = true) :
    splitWsAcc acc (c :: rest) =
      if acc = [] then splitWsAcc [] rest
      else acc.reverse :: splitWsAcc [] rest := by
  simp [splitWsAcc, h]

theorem splitWsAcc_nonspace (acc : List Char) (c : Char) (rest : List Char)
    (h : isSpace c = false) :
    splitWsAcc acc (c :: rest) = splitWsAcc (c :: acc) rest := by
  simp [splitWsAcc, h]

theorem splitWsAcc_chunk : ∀ w acc rest : List Char,
    (∀ c ∈ w, isSpace c = false) →
    splitWsAcc acc (w ++ rest) = splitWsAcc (w.reverse ++ acc) rest := by
  intro w
  induction w with
  | nil => intro acc rest _; simp
  | cons c w' ih =>
    intro acc rest h
    rw [List.cons_append, splitWsAcc_nonspace _ _ _ (h c (List.mem_cons_self c w')),
      ih (c :: acc) rest (fun d hd => h d (List.mem_cons_of_mem c hd))]
    congr 1
    simp

theorem splitWsAcc_words : ∀ l acc : List Char, (∀ c ∈ acc, isSpace c = false) →
    ∀ w ∈ splitWsAcc acc l, w ≠ [] ∧ ∀ c ∈ w, isSpace c = false := by
  intro l
  induction l with
  | nil =>
    intro acc hacc w hw
    rw [splitWsAcc_nil] at hw
    by_cases ha : acc = []
    · rw [if_pos ha] at hw
      simp at hw
    · rw [if_neg ha] at hw
      have : w = acc.reverse := by simpa using hw
      subst this
      exact ⟨by simpa using ha, fun d hd => hacc d (List.mem_reverse.mp hd)⟩
  | cons c rest ih =>
    intro acc hacc w hw
    by_cases hs : isSpace c = true
    · rw [splitWsAcc_space _ _ _ hs] at hw
      by_cases ha : acc = []
      · rw [if_pos ha] at hw
        exact ih [] (by simp) w hw
      · rw [if_neg ha] at hw
        rcases List.mem_cons.mp hw with h | h
        · subst h
          exact ⟨by simpa using ha, fun d hd => hacc d (List.mem_reverse.mp hd)⟩
        · exact ih [] (by simp) w h
    · have hs' : isSpace c = false := by simpa using hs
      rw [splitWsAcc_nonspace _ _ _ hs'] at hw
      refine ih (c :: acc) ?_ w hw
      intro d hd
      rcases List.mem_cons.mp hd with h | h
      · exact h ▸ hs'
      · exact hacc d h

theorem splitWs_words (l : List Char) :
    ∀ w ∈ splitWs l, w ≠ [] ∧ ∀ c ∈ w, isSpace c = false :=
  splitWsAcc_words l [] (by simp)

theorem mem_splitWsAcc : ∀ l acc w : List Char, ∀ c : Char,
    w ∈ splitWsAcc acc l → c ∈ w → c ∈ l ∨ c ∈ acc := by
  intro l
  induction l with
  | nil =>
    intro acc w c hw hc
    rw [splitWsAcc_nil] at hw
    by_cases ha : acc = []
    · rw [if_pos ha] at hw
      simp at hw
    · rw [if_neg ha] at hw
      have : w = acc.reverse := by simpa using hw
      subst this
      exact Or.inr (List.mem_reverse.mp hc)
  | cons a rest ih =>
    intro acc w c hw hc
    by_cases hs : isSpace a = true
    · rw [splitWsAcc_space _ _ _ hs] at hw
      by_cases ha : acc = []
      · rw [if_pos ha] at hw
        rcases ih [] w c hw hc with h | h
        · exact Or.inl (List.mem_cons_of_mem a h)
        · simp at h
      · rw [if_neg ha] at hw
        rcases List.mem_cons.mp hw with h | h
        · subst h
          exact Or.inr (List.mem_reverse.mp hc)
        · rcases ih [] w c h hc with h' | h'
          · exact Or.inl (List.mem_cons_of_mem a h')
          · simp at h'
    · have hs' : isSpace a = false := by simpa using hs
      rw [splitWsAcc_nonspace _ _ _ hs'] at hw
      rcases ih (a :: acc) w c hw hc with h | h
      · exact Or.inl (List.mem_cons_of_mem a h)
      · rcases List.mem_cons.mp h with h' | h'
        · exact Or.inl (h' ▸ List.mem_cons_self a rest)
        · exact Or.inr h'

theorem joinSp_eq (w : List Char) (ws : List (List Char)) :
    joinSp (w :: ws) = w ++ (if ws = [] then [] else ' ' :: joinSp ws) := by
  cases ws with
  | nil => simp [joinSp]
  | cons x xs => rfl

theorem mem_joinSp : ∀ ws : List (List Char), ∀ c : Char,
    c ∈ joinSp ws → c = ' ' ∨ ∃ w ∈ ws, c ∈ w := by
  intro ws
  induction ws with
  | nil => intro c hc; simp [joinSp] at hc
  | cons w ws' ih =>
    intro c hc
    rw [joinSp_eq] at hc
    rcases List.mem_append.mp hc with h | h
    · exact Or.inr ⟨w, List.mem_cons_self w ws', h⟩
    · by_cases hws : ws' = []
      · rw [if_pos hws] at h
        simp at h
      · rw [if_neg hws] at h
        rcases List.mem_cons.mp h with h' | h'
        · exact Or.inl h'
        · rcases ih c h' with h'' | ⟨u, hu, hcu⟩
          · exact Or.inl h''
          · exact Or.inr ⟨u, List.mem_cons_of_mem w hu, hcu⟩

theorem joinSp_concat : ∀ ws : List (List Char), ∀ w : List Char,
    joinSp (ws ++ [w]) = if ws = [] then w else joinSp ws ++ ' ' :: w := by
  intro ws
  induction ws with
  | nil => intro w; simp [joinSp]
  | cons u ws' ih =>
    intro w
    rw [List.cons_append, joinSp_eq u (ws' ++ [w]),
      if_neg (by simp : ¬ (ws' ++ [w] = [])), ih w, joinSp_eq u ws',
      if_neg (List.cons_ne_nil u ws')]
    by_cases hws : ws' = []
    · subst hws
      simp [joinSp]
    · rw [if_neg hws, if_neg hws]
      simp

theorem dropWhile_ok_head {l x : List Char} {c : Char}
    (hc : isSpace c = false) : ((c :: l) ++ x).dropWhile isSpace = (c :: l) ++ x := by
  rw [List.cons_append, List.dropWhile_cons, if_neg (by simp [hc])]

theorem pyStrip_joinSp : ∀ ws : List (List Char),
    (∀ w ∈ ws, w ≠ [] ∧ ∀ c ∈ w, isSpace c = false) →
    pyStrip (joinSp ws) = joinSp ws := by
  intro ws hws
  have hfront : (joinSp ws).dropWhile isSpace = joinSp ws := by
    cases ws with
    | nil => rfl
    | cons w ws' =>
      obtain ⟨hwne, hwok⟩ := hws w (List.mem_cons_self w ws')
      obtain ⟨c, w'', hw⟩ := List.exists_cons_of_ne_nil hwne
      subst hw
      rw [joinSp_eq, List.cons_append, List.dropWhile_cons,
        if_neg (by simp [hwok c (List.mem_cons_self c w'')])]
  have hback : (joinSp ws).reverse.dropWhile isSpace = (joinSp ws).reverse := by
    rcases List.eq_nil_or_concat ws with h | ⟨ws₀, w, h⟩
    · subst h
      rfl
    · rw [List.concat_eq_append] at h
      subst h
      obtain ⟨hwne, hwok⟩ := hws w (by simp)
      obtain ⟨c, w'', hw⟩ := List.exists_cons_of_ne_nil hwne
      subst hw
      obtain ⟨d, r, hdr⟩ := List.exists_cons_of_ne_nil
        (show (c :: w'').reverse ≠ [] by simp)
      have hd : isSpace d = false := by
        have hmem : d ∈ (c :: w'').reverse := by
          rw [hdr]
          exact List.mem_cons_self d r
        exact hwok d (List.mem_reverse.mp hmem)
      rw [joinSp_concat]
      by_cases hw0 : ws₀ = []
      · rw [if_pos hw0, hdr, List.dropWhile_cons, if_neg (by simp [hd])]
      · rw [if_neg hw0, List.reverse_append]
        have h1 : (' ' :: (c :: w'')).reverse = (c :: w'').reverse ++ [' '] := by
          simp
        rw [h1, hdr]
        simp only [List.cons_append]
        rw [List.dropWhile_cons, if_neg (by simp [hd])]
  rw [pyStrip, hfront, hback, List.reverse_reverse]

theorem normalizeWs_eq (l : List Char) : normalizeWs l = joinSp (splitWs l) :=
  pyStrip_joinSp (splitWs l) (splitWs_words l)

theorem noWsRun_append_ok : ∀ w l : List Char, (∀ c ∈ w, isSpace c = false) →
    noWsRun l = true → noWsRun (w ++ l) = true := by
  intro w
  induction w with
  | nil => intro l _ hl; simpa using hl
  | cons c w' ih =>
    intro l hw hl
    have h1 := ih l (fun d hd => hw d (List.mem_cons_of_mem c hd)) hl
    rw [List.cons_append]
    cases hwl : w' ++ l with
    | nil => rfl
    | cons d r =>
      rw [noWsRun, hw c (List.mem_cons_self c w')]
      simp only [Bool.false_and, Bool.not_false, Bool.true_and]
      rw [← hwl]
      exact h1

theorem noWsRun_joinSp : ∀ ws : List (List Char),
    (∀ w ∈ ws, w ≠ [] ∧ ∀ c ∈ w, isSpace c = false) →
    noWsRun (joinSp ws) = true := by
  intro ws
  induction ws with
  | nil => intro _; rfl
  | cons w ws' ih =>
    intro h
    rw [joinSp_eq]
    apply noWsRun_append_ok _ _ (h w (List.mem_cons_self w ws')).2
    by_cases hws : ws' = []
    · rw [if_pos hws]; rfl
    · rw [if_neg hws]
      have hj := ih (fun u hu => h u (List.mem_cons_of_mem w hu))
      obtain ⟨w2, ws'', hws2⟩ := List.exists_cons_of_ne_nil hws
      subst hws2
      obtain ⟨hne2, hok2⟩ := h w2 (List.mem_cons_of_mem w (List.mem_cons_self w2 ws''))
      obtain ⟨c, w2', hc⟩ := List.exists_cons_of_ne_nil hne2
      subst hc
      rw [joinSp_eq (c :: w2') ws''] at hj ⊢
      rw [List.cons_append] at hj ⊢
      rw [noWsRun, hok2 c (List.mem_cons_self c w2')]
      simp only [Bool.and_false, Bool.not_false, Bool.true_and]
      exact hj

theorem dropWhile_head_false {p : Char → Bool} : ∀ l : List Char, ∀ d r',
    l.dropWhile p = d :: r' → p d = false := by
  intro l
  induction l with
  | nil => intro d r' h; simp at h
  | cons a rest ih =>
    intro d r' h
    rw [List.dropWhile_cons] at h
    by_cases hp : p a
    · exact ih d r' (by rwa [if_pos hp] at h)
    · rw [if_neg hp] at h
      obtain ⟨h1, _⟩ := List.cons.inj h
      subst h1
      simpa using hp

theorem noSpan_glue : ∀ w r J : List Char, NoSpan (w ++ r) →
    (∀ c ∈ w, isSpace c = false) →
    (r = [] ∨ ∃ d r', r = d :: r' ∧ isSpace d = true) →
    NoSpan J → ('>' ∈ J → '>' ∈ r) → NoSpan (w ++ ' ' :: J) := by
  intro w
  induction w with
  | nil =>
    intro r J _ _ _ h4 _
    rw [List.nil_append, noSpan_cons_iff]
    exact ⟨fun h => absurd h (by decide), h4⟩
  | cons c w' ih =>
    intro r J h1 h2 h3 h4 h5
    rw [List.cons_append] at h1 ⊢
    rw [noSpan_cons_iff] at h1
    rw [noSpan_cons_iff]
    obtain ⟨h1a, h1b⟩ := h1
    refine ⟨?_, ih r J h1b (fun d hd => h2 d (List.mem_cons_of_mem c hd)) h3 h4 h5⟩
    intro hc
    rcases h1a hc with hno | hhd
    · left
      intro hmem
      rcases List.mem_append.mp hmem with hmw | hmj
      · exact hno (List.mem_append_left r hmw)
      · rcases List.mem_cons.mp hmj with he | hj
        · exact absurd he (by decide)
        · exact hno (List.mem_append_right w' (h5 hj))
    · cases w' with
      | nil =>
        rcases h3 with h3e | ⟨d, r', hr, hd⟩
        · rw [h3e] at hhd
          simp at hhd
        · rw [hr] at hhd
          simp only [List.nil_append, List.head?_cons, Option.some.injEq] at hhd
          rw [hhd] at hd
          exact absurd hd (by decide)
      | cons x xs =>
        right
        rw [List.cons_append] at hhd
        simp only [List.head?_cons, Option.some.injEq] at hhd
        rw [List.cons_append]
        simp [hhd]

theorem noSpan_split_join : ∀ n : Nat, ∀ o : List Char, o.length ≤ n → NoSpan o →
    NoSpan (joinSp (splitWs o)) := by
  intro n
  induction n with
  | zero =>
    intro o ho _
    have : o = [] := List.length_eq_zero.mp (Nat.le_zero.mp ho)
    subst this
    exact noSpan_nil
  | succ n ih =>
    intro o ho hns
    cases o with
    | nil => exact noSpan_nil
    | cons c o' =>
      by_cases hs : isSpace c = true
      · have he : splitWs (c :: o') = splitWs o' := by
          rw [splitWs, splitWsAcc_space _ _ _ hs, if_pos rfl]
          rfl
        rw [he]
        refine ih o' ?_ (noSpan_append_right (x := [c]) hns)
        rw [List.length_cons] at ho
        omega
      · have hs' : isSpace c = false := by simpa using hs
        have hwr : (c :: o').takeWhile (fun x => !isSpace x) ++
            (c :: o').dropWhile (fun x => !isSpace x) = c :: o' :=
          List.takeWhile_append_dropWhile _ _
        have hwok : ∀ d ∈ (c :: o').takeWhile (fun x => !isSpace x),
            isSpace d = false := by
          intro d hd
          have := List.mem_takeWhile_imp hd
          simpa using this
        obtain ⟨w', hwc⟩ : ∃ w',
            (c :: o').takeWhile (fun x => !isSpace x) = c :: w' := by
          rw [List.takeWhile_cons, if_pos (by simp [hs'])]
          exact ⟨_, rfl⟩
        have hsplit0 : splitWsAcc [] (c :: o') =
            splitWsAcc ((c :: o').takeWhile (fun x => !isSpace x)).reverse
              ((c :: o').dropWhile (fun x => !isSpace x)) := by
          conv_lhs => rw [← hwr]
          rw [splitWsAcc_chunk _ [] _ hwok, List.append_nil]
        cases hrc : (c :: o').dropWhile (fun x => !isSpace x) with
        | nil =>
          have hone : splitWs (c :: o') =
              [(c :: o').takeWhile (fun x => !isSpace x)] := by
            rw [splitWs, hsplit0, hrc, splitWsAcc_nil,
              if_neg (by simp [hwc]), List.reverse_reverse]
          rw [hone, joinSp_eq, if_pos rfl, List.append_nil]
          have hweq : (c :: o').takeWhile (fun x => !isSpace x) = c :: o' := by
            conv_rhs => rw [← hwr]
            rw [hrc, List.append_nil]
          rw [hweq]
          exact hns
        | cons d r' =>
          have hd : isSpace d = true := by
            have := dropWhile_head_false (c :: o') d r' hrc
            simpa using this
          have hsplit : splitWs (c :: o') =
              (c :: o').takeWhile (fun x => !isSpace x) :: splitWs r' := by
            rw [splitWs, hsplit0, hrc, splitWsAcc_space _ _ _ hd,
              if_neg (by simp [hwc]), List.reverse_reverse, splitWs]
          rw [hsplit, joinSp_eq]
          by_cases hsr : splitWs r' = []
          · rw [if_pos hsr, List.append_nil]
            have hws : NoSpan ((c :: o').takeWhile (fun x => !isSpace x) ++
                (c :: o').dropWhile (fun x => !isSpace x)) := by
              rw [hwr]
              exact hns
            exact noSpan_append_left hws
          · rw [if_neg hsr]
            apply noSpan_glue _ (d :: r') (joinSp (splitWs r'))
            · rw [← hrc, hwr]
              exact hns
            · exact hwok
            · exact Or.inr ⟨d, r', rfl, hd⟩
            · refine ih r' ?_ ?_
              · have hlen : ((c :: o').takeWhile (fun x => !isSpace x)).length +
                    ((c :: o').dropWhile (fun x => !isSpace x)).length =
                    o'.length + 1 := by
                  rw [← List.length_append, hwr, List.length_cons]
                rw [hrc, hwc, List.length_cons, List.length_cons] at hlen
                rw [List.length_cons] at ho
                omega
              · have h1 : NoSpan ((c :: o').dropWhile (fun x => !isSpace x)) := by
                  refine noSpan_append_right (x :=
                    (c :: o').takeWhile (fun x => !isSpace x)) ?_
                  rw [hwr]
                  exact hns
                rw [hrc] at h1
                exact noSpan_append_right (x := [d]) h1
            · intro hj
              rcases mem_joinSp _ _ hj with he | ⟨u, hu, hcu⟩
              · exact absurd he (by decide)
              · rcases mem_splitWsAcc r' [] u '>' hu hcu with h | h
                · exact List.mem_cons_of_mem d h
                · simp at h

theorem splitWs_joinSp : ∀ ws : List (List Char),
    (∀ w ∈ ws, w ≠ [] ∧ ∀ c ∈ w, isSpace c = false) →
    splitWs (joinSp ws) = ws := by
  intro ws
  induction ws with
  | nil => intro _; rfl
  | cons w ws' ih =>
    intro h
    obtain ⟨hne, hok⟩ := h w (List.mem_cons_self w ws')
    rw [joinSp_eq, splitWs, splitWsAcc_chunk w [] _ hok, List.append_nil]
    by_cases hws : ws' = []
    · rw [if_pos hws, splitWsAcc_nil, if_neg (by simpa using hne),
        List.reverse_reverse, hws]
    · rw [if_neg hws, splitWsAcc_space _ _ _ (by decide),
        if_neg (by simpa using hne), List.reverse_reverse]
      rw [show splitWsAcc [] (joinSp ws') = splitWs (joinSp ws') from rfl,
        ih (fun u hu => h u (List.mem_cons_of_mem w hu))]

theorem normalizeWs_idem (l : List Char) :
    normalizeWs (normalizeWs l) = normalizeWs l := by
  rw [normalizeWs_eq l, normalizeWs_eq (joinSp (splitWs l)),
    splitWs_joinSp _ (splitWs_words l)]

theorem removeTagsAux_wrap : ∀ s : List Char, ∀ f : Nat, s.length + 4 ≤ f →
    '<' ∉ s → '>' ∉ s →
    removeTagsAux f (s ++ '<' :: '/' :: 'p' :: '>' :: []) = s := by
  intro s
  induction s with
  | nil =>
    intro f hf _ _
    cases f with
    | zero => omega
    | succ f' =>
      rw [List.nil_append]
      have h1 : ¬ ((('/' :: 'p' :: '>' :: []).takeWhile
          (fun x => x ≠ '>')).length = ('/' :: 'p' :: '>' :: []).length) := by
        decide
      have h2 : ¬ (('/' :: 'p' :: '>' :: []).takeWhile (fun x => x ≠ '>') = []) := by
        decide
      rw [removeTagsAux_lt_span f' _ h1 h2]
      have h3 : ('/' :: 'p' :: '>' :: ([] : List Char)).drop
          ((('/' :: 'p' :: '>' :: ([] : List Char)).takeWhile
            (fun x => x ≠ '>')).length + 1) = [] := by decide
      rw [h3, removeTagsAux_nil]
  | cons c s' ih =>
    intro f hf hlt hgt
    cases f with
    | zero => omega
    | succ f' =>
      rw [List.cons_append,
        removeTagsAux_cons_ne f' c _ (fun e => hlt (e ▸ List.mem_cons_self c s')),
        ih f' (by rw [List.length_cons] at hf; omega)
          (fun hm => hlt (List.mem_cons_of_mem c hm))
          (fun hm => hgt (List.mem_cons_of_mem c hm))]

/-- Claim C4: an event is eligible in public-timeline mode iff its
reply-target is null, its author is not the bot, its visibility is public and
it carries no reblog reference; negating any single conjunct therefore makes
it ineligible. -/
theorem c4_eligibility_iff (botId : Nat) (s : Status) :
    eligible botId s = true ↔
      (s.in_reply_to_id = none ∧ s.account_id ≠ botId ∧
        s.visibility = pubVis ∧ s.reblog = none) := by
  simp [eligible, and_assoc]

/-- Claim C1 (code bug): the probability gate is inverted.  A uniform draw of
1/2 — far below the top 5% of the range — is processed (the run posts a
reply), while a draw of 96/100 — inside the top 5% — is the one that gets
skipped.  The code replies with probability about 0.95, and its own comment
claims about a 10% reply chance. -/
theorem c1_sampler_inverted :
    on_update 1 ⟨mkRat 1 2, GenOutcome.text "ok".data, true, true⟩ statusA ≠
      RunResult.sampledOut ∧
    ¬ (mkRat 95 100 < mkRat 1 2) ∧
    mkRat 95 100 < mkRat 96 100 ∧
    on_update 1 ⟨mkRat 96 100, GenOutcome.text "ok".data, true, true⟩ statusA =
      RunResult.sampledOut := by
  decide

/-- Claim C2 counterexample: with a 600-character generated body the posted
text has length 493, exceeding the claimed 490-character total budget. -/
theorem c2_length_counterexample :
    (postsOf (on_update 1 ⟨mkRat 1 2, GenOutcome.text (List.replicate 600 'a'), true, true⟩
        statusA)).map (fun p => p.status.length) = [493] ∧ ¬ (493 ≤ 490) := by
  decide

/-- Claim C2 as amended: every composed reply (mention prefix plus body,
truncated at 490 with a three-character ellipsis appended) has total length at
most 493. -/
theorem c2_reply_length_le (acct body : List Char) :
    (composeReply acct body).length ≤ 493 := by
  have hc : composeReply acct body =
      if 490 < ('@' :: acct ++ ' ' :: body).length then
        ('@' :: acct ++ ' ' :: body).take 490 ++ "...".data
      else '@' :: acct ++ ' ' :: body := rfl
  rw [hc]
  by_cases h : 490 < ('@' :: acct ++ ' ' :: body).length
  · rw [if_pos h, List.length_append, List.length_take]
    have h3 : ("...".data).length = 3 := rfl
    omega
  · rw [if_neg h]
    omega

/-- Claim C3 counterexample: sanitizing `<p>hello</p>` yields `hello` — the
text enclosed between the tags is preserved, not removed. -/
theorem c3_enclosed_text_preserved :
    strip_html "<p>hello</p>".data = "hello".data ∧
      "hello".data ≠ ([] : List Char) := by
  decide

/-- Claim C5 counterexample: an eligible, sampled-in event whose generation
call returns normally with empty text ends in silence even though both post
operations would have succeeded — silence without a double posting failure. -/
theorem c5_silent_without_failure :
    eligible 1 statusA = true ∧ ¬ (mkRat 95 100 < mkRat 1 2) ∧
    on_update 1 ⟨mkRat 1 2, GenOutcome.text [], true, true⟩ statusA =
      RunResult.emptyGeneration ∧
    postsOf (on_update 1 ⟨mkRat 1 2, GenOutcome.text [], true, true⟩ statusA) = [] := by
  decide

/-- Claim C7 counterexample: sanitizing `@<b>user</b>` yields `@user`; the
mention-removal regex still matches the output, so the output contains an
`@handle` token. -/
theorem c7_mention_survives :
    strip_html "@<b>user</b>".data = "@user".data ∧
      removeMentions (strip_html "@<b>user</b>".data) ≠
        strip_html "@<b>user</b>".data := by
  decide

/-- Claim C8 counterexample: the sanitizer is not idempotent — sanitizing the
output `@user` of sanitizing `@<b>user</b>` removes the spliced mention and
yields the empty string. -/
theorem c8_not_idempotent :
    strip_html (strip_html "@<b>user</b>".data) ≠
      strip_html "@<b>user</b>".data := by
  decide

/-- Claim C9: no event authored by the bot's own account ever gets any
outbound post, substantive or apologetic. -/
theorem c9_no_self_reply (botId : Nat) (env : Env) (s : Status)
    (h : s.account_id = botId) : postsOf (on_update botId env s) = [] := by
  have he : eligible botId s = false := by simp [eligible, h]
  simp [on_update, he, postsOf]

theorem c9_no_self_reply_witness :
    postsOf (on_update 2 ⟨mkRat 1 2, GenOutcome.text "ok".data, true, true⟩ statusA) = [] :=
  c9_no_self_reply 2 ⟨mkRat 1 2, GenOutcome.text "ok".data, true, true⟩ statusA rfl

/-- Claim C10: when generation returns normally with empty extracted text,
the eligible, sampled-in event with nonempty sanitized content ends silently —
no reply of any kind is posted. -/
theorem c10_empty_generation_silent (botId : Nat) (env : Env) (s : Status)
    (h1 : eligible botId s = true) (h2 : ¬ (mkRat 95 100 < env.rand))
    (h3 : strip_html s.content ≠ []) (h4 : env.gen = GenOutcome.text []) :
    on_update botId env s = RunResult.emptyGeneration ∧
      postsOf (on_update botId env s) = [] := by
  have : on_update botId env s = RunResult.emptyGeneration := by
    simp [on_update, h1, h2, h3, h4, geminiReplyText]
  exact ⟨this, by simp [this, postsOf]⟩

theorem c10_empty_generation_silent_witness :
    on_update 1 ⟨mkRat 0 1, GenOutcome.text [], true, true⟩ statusA =
        RunResult.emptyGeneration ∧
      postsOf (on_update 1 ⟨mkRat 0 1, GenOutcome.text [], true, true⟩ statusA) = [] :=
  c10_empty_generation_silent 1 ⟨mkRat 0 1, GenOutcome.text [], true, true⟩ statusA
    (by decide) (by decide) (by decide) rfl

/-- Claim C6: every failure of the fallible operations inside the dispatcher's
try block (the generation call raising, or the primary post failing) is
contained: `on_update` still returns, exactly one apology post is attempted
with visibility `direct`, and if that post also fails the run ends in
`doubleFailure` with nothing propagated. -/
theorem c6_error_containment (botId : Nat) (env : Env) (s : Status)
    (h1 : eligible botId s = true) (h2 : ¬ (mkRat 95 100 < env.rand))
    (h3 : strip_html s.content ≠ [])
    (h4 : env.gen = GenOutcome.raised ∨
      (geminiReplyText env.gen ≠ [] ∧ env.postOk = false)) :
    on_update botId env s =
      if env.errPostOk then
        RunResult.errorReplied ⟨errApology s.acct, s.id, "direct".data⟩
      else RunResult.doubleFailure := by
  obtain ⟨r, g, po, eo⟩ := env
  rcases h4 with h4 | ⟨h4a, h4b⟩
  · cases h4
    simp [on_update, h1, h2, h3]
  · simp only at h4a h4b
    subst h4b
    cases g with
    | raised => simp [on_update, h1, h2, h3]
    | text t => simp [on_update, h1, h2, h3, h4a]
    | blocked => simp [on_update, h1, h2, h3, h4a]
    | failed => simp [on_update, h1, h2, h3, h4a]

theorem c6_error_containment_witness :
    on_update 1 ⟨mkRat 1 2, GenOutcome.raised, true, true⟩ statusA =
      RunResult.errorReplied ⟨errApology "alice".data, 10, "direct".data⟩ := by
  have h := c6_error_containment 1 ⟨mkRat 1 2, GenOutcome.raised, true, true⟩ statusA
    (by decide) (by decide) (by decide) (Or.inl rfl)
  simpa using h

/-- Claim C5 as amended: an eligible, sampled-in event always ends in exactly
one of: a posted reply (substantive or canned apology body), a posted error
apology, or silence — and silence happens only when the sanitized content is
empty, or generation returned empty text, or the fallback apology post failed
after an error. -/
theorem c5_outcome_paths (botId : Nat) (env : Env) (s : Status)
    (h1 : eligible botId s = true) (h2 : ¬ (mkRat 95 100 < env.rand)) :
    (∃ p, on_update botId env s = RunResult.replied p) ∨
    (∃ p, on_update botId env s = RunResult.errorReplied p) ∨
    (on_update botId env s = RunResult.emptyContent ∧ strip_html s.content = []) ∨
    (on_update botId env s = RunResult.emptyGeneration ∧
      env.gen = GenOutcome.text []) ∨
    (on_update botId env s = RunResult.doubleFailure ∧ env.errPostOk = false) := by
  obtain ⟨r, g, po, eo⟩ := env
  simp only at h2 ⊢
  by_cases h3 : strip_html s.content = []
  · exact Or.inr (Or.inr (Or.inl ⟨by simp [on_update, h1, h2, h3], h3⟩))
  · have hb : geminiReplyText GenOutcome.blocked ≠ [] := by decide
    have hf : geminiReplyText GenOutcome.failed ≠ [] := by decide
    cases g with
    | raised =>
      cases eo with
      | true =>
        exact Or.inr (Or.inl ⟨⟨errApology s.acct, s.id, "direct".data⟩,
          by simp [on_update, h1, h2, h3]⟩)
      | false =>
        exact Or.inr (Or.inr (Or.inr (Or.inr
          ⟨by simp [on_update, h1, h2, h3], rfl⟩)))
    | text t =>
      by_cases ht : t = []
      · subst ht
        exact Or.inr (Or.inr (Or.inr (Or.inl
          ⟨by simp [on_update, h1, h2, h3, geminiReplyText], rfl⟩)))
      · cases po with
        | true =>
          exact Or.inl ⟨⟨composeReply s.acct t, s.id, "unlisted".data⟩,
            by simp [on_update, h1, h2, h3, geminiReplyText, ht]⟩
        | false =>
          cases eo with
          | true =>
            exact Or.inr (Or.inl ⟨⟨errApology s.acct, s.id, "direct".data⟩,
              by simp [on_update, h1, h2, h3, geminiReplyText, ht]⟩)
          | false =>
            exact Or.inr (Or.inr (Or.inr (Or.inr
              ⟨by simp [on_update, h1, h2, h3, geminiReplyText, ht], rfl⟩)))
    | blocked =>
      cases po with
      | true =>
        exact Or.inl ⟨⟨composeReply s.acct (geminiReplyText GenOutcome.blocked),
          s.id, "unlisted".data⟩, by simp [on_update, h1, h2, h3, hb]⟩
      | false =>
        cases eo with
        | true =>
          exact Or.inr (Or.inl ⟨⟨errApology s.acct, s.id, "direct".data⟩,
            by simp [on_update, h1, h2, h3, hb]⟩)
        | false =>
          exact Or.inr (Or.inr (Or.inr (Or.inr
            ⟨by simp [on_update, h1, h2, h3, hb], rfl⟩)))
    | failed =>
      cases po with
      | true =>
        exact Or.inl ⟨⟨composeReply s.acct (geminiReplyText GenOutcome.failed),
          s.id, "unlisted".data⟩, by simp [on_update, h1, h2, h3, hf]⟩
      | false =>
        cases eo with
        | true =>
          exact Or.inr (Or.inl ⟨⟨errApology s.acct, s.id, "direct".data⟩,
            by simp [on_update, h1, h2, h3, hf]⟩)
        | false =>
          exact Or.inr (Or.inr (Or.inr (Or.inr
            ⟨by simp [on_update, h1, h2, h3, hf], rfl⟩)))

theorem c5_outcome_paths_witness :
    (∃ p, on_update 1 ⟨mkRat 0 1, GenOutcome.text "ok".data, true, true⟩ statusA =
        RunResult.replied p) ∨
    (∃ p, on_update 1 ⟨mkRat 0 1, GenOutcome.text "ok".data, true, true⟩ statusA =
        RunResult.errorReplied p) ∨
    (on_update 1 ⟨mkRat 0 1, GenOutcome.text "ok".data, true, true⟩ statusA =
        RunResult.emptyContent ∧ strip_html statusA.content = []) ∨
    (on_update 1 ⟨mkRat 0 1, GenOutcome.text "ok".data, true, true⟩ statusA =
        RunResult.emptyGeneration ∧
      (⟨mkRat 0 1, GenOutcome.text "ok".data, true, true⟩ : Env).gen = GenOutcome.text []) ∨
    (on_update 1 ⟨mkRat 0 1, GenOutcome.text "ok".data, true, true⟩ statusA =
        RunResult.doubleFailure ∧
      (⟨mkRat 0 1, GenOutcome.text "ok".data, true, true⟩ : Env).errPostOk = false) :=
  c5_outcome_paths 1 ⟨mkRat 0 1, GenOutcome.text "ok".data, true, true⟩ statusA
    (by decide) (by decide)

/-- Claim C7 as amended: for every input, the sanitized output contains no run
of two or more consecutive whitespace characters and no angle-bracket span
matching `<[^>]+>`; the mention and hashtag postconditions do not hold in
general, because tag removal can splice an `@handle` or `#tag` token back
together (see the counterexample). -/
theorem c7_ws_and_tag_postconditions (t : List Char) :
    noWsRun (strip_html t) = true ∧ noSpanB (strip_html t) = true := by
  constructor
  · rw [strip_html, normalizeWs_eq]
    exact noWsRun_joinSp _ (splitWs_words _)
  · rw [strip_html, normalizeWs_eq, noSpanB_iff]
    exact noSpan_split_join
      (removeTags (removeHashtags (removeMentions (unescape t)))).length _
      (le_refl _) (noSpan_removeTags _)

/-- Claim C8 as amended: the sanitizer is idempotent on every input whose
sanitized output contains none of the characters `&`, `@`, `#`, `<`; in
general sanitizing twice can shrink the text further, because tag removal can
splice new mention or hashtag tokens and entity decoding applies again. -/
theorem c8_idempotent_on_clean (s : List Char)
    (h1 : '&' ∉ strip_html s) (h2 : '@' ∉ strip_html s)
    (h3 : '#' ∉ strip_html s) (h4 : '<' ∉ strip_html s) :
    strip_html (strip_html s) = strip_html s := by
  conv_lhs => rw [strip_html]
  rw [unescape_id h1, removeMentions_id h2, removeHashtags_id h3,
    removeTags_id h4, strip_html, normalizeWs_idem]

theorem c8_idempotent_on_clean_witness :
    strip_html (strip_html "hello world".data) = strip_html "hello world".data :=
  c8_idempotent_on_clean "hello world".data (by decide) (by decide) (by decide)
    (by decide)

/-- Claim C3 as amended: a matched markup tag pair is removed but the enclosed
text is kept: for any tag-free, mention-free, hashtag-free, entity-free body
`s`, sanitizing `<p>` ++ s ++ `</p>` gives the same result as sanitizing `s`
alone. -/
theorem c3_tags_removed_enclosed_kept (s : List Char)
    (h : ∀ c ∈ s, c ≠ '&' ∧ c ≠ '@' ∧ c ≠ '#' ∧ c ≠ '<' ∧ c ≠ '>') :
    strip_html ('<' :: 'p' :: '>' :: (s ++ '<' :: '/' :: 'p' :: '>' :: [])) =
      strip_html s := by
  have hnot : ∀ x : Char,
      x ∈ ('<' :: 'p' :: '>' :: (s ++ '<' :: '/' :: 'p' :: '>' :: [])) →
      x = '<' ∨ x = 'p' ∨ x = '>' ∨ x = '/' ∨ x ∈ s := by
    intro x hx
    rcases List.mem_cons.mp hx with h' | hx
    · exact Or.inl h'
    rcases List.mem_cons.mp hx with h' | hx
    · exact Or.inr (Or.inl h')
    rcases List.mem_cons.mp hx with h' | hx
    · exact Or.inr (Or.inr (Or.inl h'))
    rcases List.mem_append.mp hx with h' | hx
    · exact Or.inr (Or.inr (Or.inr (Or.inr h')))
    rcases List.mem_cons.mp hx with h' | hx
    · exact Or.inl h'
    rcases List.mem_cons.mp hx with h' | hx
    · exact Or.inr (Or.inr (Or.inr (Or.inl h')))
    rcases List.mem_cons.mp hx with h' | hx
    · exact Or.inr (Or.inl h')
    rcases List.mem_cons.mp hx with h' | hx
    · exact Or.inr (Or.inr (Or.inl h'))
    simp at hx
  have hsamp : '&' ∉ s := fun hm => (h '&' hm).1 rfl
  have hsat : '@' ∉ s := fun hm => (h '@' hm).2.1 rfl
  have hshash : '#' ∉ s := fun hm => (h '#' hm).2.2.1 rfl
  have hslt : '<' ∉ s := fun hm => (h '<' hm).2.2.2.1 rfl
  have hsgt : '>' ∉ s := fun hm => (h '>' hm).2.2.2.2 rfl
  have hamp : '&' ∉ ('<' :: 'p' :: '>' :: (s ++ '<' :: '/' :: 'p' :: '>' :: [])) := by
    intro hm
    rcases hnot '&' hm with h' | h' | h' | h' | h'
    · exact absurd h' (by decide)
    · exact absurd h' (by decide)
    · exact absurd h' (by decide)
    · exact absurd h' (by decide)
    · exact hsamp h'
  have hat : '@' ∉ ('<' :: 'p' :: '>' :: (s ++ '<' :: '/' :: 'p' :: '>' :: [])) := by
    intro hm
    rcases hnot '@' hm with h' | h' | h' | h' | h'
    · exact absurd h' (by decide)
    · exact absurd h' (by decide)
    · exact absurd h' (by decide)
    · exact absurd h' (by decide)
    · exact hsat h'
  have hhash : '#' ∉ ('<' :: 'p' :: '>' :: (s ++ '<' :: '/' :: 'p' :: '>' :: [])) := by
    intro hm
    rcases hnot '#' hm with h' | h' | h' | h' | h'
    · exact absurd h' (by decide)
    · exact absurd h' (by decide)
    · exact absurd h' (by decide)
    · exact absurd h' (by decide)
    · exact hshash h'
  rw [strip_html, unescape_id hamp, removeMentions_id hat, removeHashtags_id hhash]
  have hrt : removeTags ('<' :: 'p' :: '>' :: (s ++ '<' :: '/' :: 'p' :: '>' :: [])) =
      s := by
    rw [removeTags]
    have hL : ('<' :: 'p' :: '>' :: (s ++ '<' :: '/' :: 'p' :: '>' :: [])).length =
        (s.length + 6) + 1 := by
      simp only [List.length_cons, List.length_append, List.length_nil]
    rw [hL]
    have h1 : ¬ ((('p' :: '>' :: (s ++ '<' :: '/' :: 'p' :: '>' :: [])).takeWhile
        (fun x => x ≠ '>')).length =
        ('p' :: '>' :: (s ++ '<' :: '/' :: 'p' :: '>' :: [])).length) := by
      rw [List.takeWhile_cons, if_pos (by decide), List.takeWhile_cons,
        if_neg (by decide)]
      simp only [List.length_cons, List.length_append, List.length_nil]
      omega
    have h2 : ¬ (('p' :: '>' :: (s ++ '<' :: '/' :: 'p' :: '>' :: [])).takeWhile
        (fun x => x ≠ '>') = []) := by
      rw [List.takeWhile_cons, if_pos (by decide)]
      exact List.cons_ne_nil _ _
    rw [removeTagsAux_lt_span (s.length + 6) _ h1 h2]
    have h3 : ('p' :: '>' :: (s ++ '<' :: '/' :: 'p' :: '>' :: [])).takeWhile
        (fun x => x ≠ '>') = ['p'] := by
      rw [List.takeWhile_cons, if_pos (by decide), List.takeWhile_cons,
        if_neg (by decide)]
    rw [h3]
    rw [show (['p'] : List Char).length + 1 = 2 from rfl]
    rw [show List.drop 2 ('p' :: '>' :: (s ++ '<' :: '/' :: 'p' :: '>' :: [])) =
      s ++ '<' :: '/' :: 'p' :: '>' :: [] from rfl]
    exact removeTagsAux_wrap s (s.length + 6) (by omega) hslt hsgt
  rw [hrt, strip_html, unescape_id hsamp, removeMentions_id hsat,
    removeHashtags_id hshash, removeTags_id hslt]

theorem c3_tags_removed_enclosed_kept_witness :
    strip_html ('<' :: 'p' :: '>' :: ("hello".data ++ '<' :: '/' :: 'p' :: '>' :: [])) =
      strip_html "hello".data :=
  c3_tags_removed_enclosed_kept "hello".data (by decide)

end PsychBot
